import Mathlib

/-!
Shallow embedding of the PII-Masking-Project pipeline
(`utils/ocr_mask.py`) and proofs about its detection and
bounding-box-merging logic.

Conventions of the embedding:
* Pixel coordinates are `Int` (Python `int`).
* A box in the `(x, y, w, h)` form of the Python code is `BBox`; the
  `[x1, y1, x2, y2]` corner form used inside `_merge_overlaps` is `CRect`.
* Python `while` loops are modelled with an explicit fuel argument that
  bounds the number of iterations; the top-level wrappers instantiate the
  fuel with a provably sufficient bound, and fuel-irrelevance lemmas below
  show the value does not depend on the chosen bound.
* The OCR engine and the image codec are external collaborators: the
  pipeline entry point receives the decode result (`none` for an
  unreadable image, `some words` for the recognized word tokens) and
  returns the list of file paths it writes next to its result.
* Python string predicates (`isupper`, `islower`, `\w`) are modelled on
  their ASCII fragment, which is the fragment exercised by the spec.
-/

namespace OcrMask

/-- A recognized word token: text plus its bounding rectangle, as in the
dicts produced by `_read_words_with_boxes` (the confidence field is not
consulted by any detector and is omitted). -/
structure WordTok where
  text : String
  left : Int
  top : Int
  width : Int
  height : Int
deriving DecidableEq

/-- A rectangle in the `(x, y, w, h)` form used throughout `ocr_mask.py`. -/
structure BBox where
  x : Int
  y : Int
  w : Int
  h : Int
deriving DecidableEq

/-- A rectangle in the `[x1, y1, x2, y2]` corner form used inside
`_merge_overlaps`. -/
structure CRect where
  x1 : Int
  y1 : Int
  x2 : Int
  y2 : Int
deriving DecidableEq

/-- Conversion `(x, y, w, h) ↦ [x, y, x+w, y+h]` (line 66 of the source). -/
def toCRect (b : BBox) : CRect :=
  ⟨b.x, b.y, b.x + b.w, b.y + b.h⟩

/-- Conversion back `[x1, y1, x2, y2] ↦ (x1, y1, x2-x1, y2-y1)` (line 97). -/
def toBBox (r : CRect) : BBox :=
  ⟨r.x1, r.y1, r.x2 - r.x1, r.y2 - r.y1⟩

/-- The overlap test of `_merge_overlaps` (line 83):
`not (x2 < a1 or a2 < x1 or y2 < b1 or b2 < y1)`. -/
def overlapsB (r s : CRect) : Bool :=
  !(decide (r.x2 < s.x1) || decide (s.x2 < r.x1) ||
    decide (r.y2 < s.y1) || decide (s.y2 < r.y1))

/-- The union step of `_merge_overlaps` (lines 85-86): componentwise
min of the low corners and max of the high corners. -/
def unionC (r s : CRect) : CRect :=
  ⟨min r.x1 s.x1, min r.y1 s.y1, max r.x2 s.x2, max r.y2 s.y2⟩

/-- Inner `j`-loop of one pass of `_merge_overlaps` (lines 78-88): the
current rectangle `r` absorbs, left to right, every later rectangle that
overlaps it (growing as it goes); the survivors are kept in order for the
following iterations of the `i`-loop.  Returns the grown rectangle, the
survivors, and whether any merge happened. -/
def absorb (r : CRect) : List CRect → CRect × List CRect × Bool
  | [] => (r, [], false)
  | s :: rest =>
    if overlapsB r s then
      let a := absorb (unionC r s) rest
      (a.1, a.2.1, true)
    else
      let a := absorb r rest
      (a.1, s :: a.2.1, a.2.2)

/-- One full pass of the `for i` loop (lines 71-90), with fuel bounding
the recursion depth.  With fuel at least the list length this is exactly
one pass of the Python loop; the fuel-0 stub is unreachable then. -/
def mergePassN : Nat → List CRect → List CRect × Bool
  | _, [] => ([], false)
  | 0, _ :: _ => ([], false)
  | n + 1, r :: rest =>
    let a := absorb r rest
    let p := mergePassN n a.2.1
    (a.1 :: p.1, a.2.2 || p.2)

/-- One pass of `_merge_overlaps` over the current rectangle list. -/
def mergePass (l : List CRect) : List CRect × Bool :=
  mergePassN l.length l

/-- The outer `while merged` loop (lines 68-92), with fuel bounding the
number of passes.  Every pass that reports a merge strictly shrinks the
list, so `length + 1` passes always reach the fixed point. -/
def mergeLoopN : Nat → List CRect → List CRect
  | 0, l => l
  | n + 1, l =>
    if (mergePass l).2 then mergeLoopN n (mergePass l).1 else (mergePass l).1

/-- The fixed-point iteration of `_merge_overlaps` on corner rectangles. -/
def mergeLoop (l : List CRect) : List CRect :=
  mergeLoopN (l.length + 1) l

/-- `_merge_overlaps` (lines 55-98): convert to corner form, iterate
passes to a fixed point, convert back to `(x, y, w, h)`. -/
def merge_overlaps (boxes : List BBox) : List BBox :=
  if boxes.isEmpty then []
  else (mergeLoop (boxes.map toCRect)).map toBBox

/-- `_expand_bbox` (lines 52-53): pad a box, clamping the origin at 0. -/
def expand_bbox (left top width height pad : Int) : BBox :=
  ⟨max 0 (left - pad), max 0 (top - pad), width + 2 * pad, height + 2 * pad⟩

/-- `_expand_bbox` applied to a packed `BBox`. -/
def expandBBoxPad (b : BBox) (pad : Int) : BBox :=
  expand_bbox b.x b.y b.w b.h pad

/-- Membership of a pixel in the closed region covered by a box. -/
def inBBox (b : BBox) (px py : Int) : Bool :=
  decide (b.x ≤ px) && decide (px ≤ b.x + b.w) &&
  decide (b.y ≤ py) && decide (py ≤ b.y + b.h)

/-- Corner-form box containment: `outer` contains `inner`. -/
def containsC (outer inner : CRect) : Bool :=
  decide (outer.x1 ≤ inner.x1) && decide (outer.y1 ≤ inner.y1) &&
  decide (inner.x2 ≤ outer.x2) && decide (inner.y2 ≤ outer.y2)

/-- Box containment in `(x, y, w, h)` form, via the corner forms. -/
def containsBBox (outer inner : BBox) : Bool :=
  containsC (toCRect outer) (toCRect inner)

/-- Python `\w` on the ASCII range: letters, digits, underscore. -/
def isWordChar (c : Char) : Bool :=
  c.isAlphanum || c = '_'

/-- Consume exactly `n` ASCII digits, returning the remainder. -/
def dropDigits : Nat → List Char → Option (List Char)
  | 0, l => some l
  | _ + 1, [] => none
  | n + 1, c :: rest => if c.isDigit then dropDigits n rest else none

/-- Both ways the optional separator `[- ]?` can consume input: if the
next character is a dash or a space the regex may take it or leave it;
otherwise it must leave it. -/
def sepBranches : List Char → List (List Char)
  | [] => [[]]
  | c :: rest =>
    if c = '-' || c = ' ' then [rest, c :: rest] else [c :: rest]

/-- The trailing `\b` of `SSN_REGEX`: since the last matched character is
a digit, the boundary holds iff the remainder starts with a non-word
character (or is empty). -/
def boundaryAfter : List Char → Bool
  | [] => true
  | c :: _ => !isWordChar c

/-- Match of `\d{3}[- ]?\d{2}[- ]?\d{4}\b` starting exactly here. -/
def ssnMatchAt (l : List Char) : Bool :=
  (dropDigits 3 l).elim false fun r1 =>
    (sepBranches r1).any fun r2 =>
      (dropDigits 2 r2).elim false fun r3 =>
        (sepBranches r3).any fun r4 =>
          (dropDigits 4 r4).elim false boundaryAfter

/-- Scan for a match at any start position.  The leading `\b` holds iff
the previous character (`none` at the string start) is not a word
character, because the first matched character is a digit. -/
def ssnSearchAux (prev : Option Char) : List Char → Bool
  | [] => false
  | c :: rest =>
    ((prev.elim true fun p => !isWordChar p) && ssnMatchAt (c :: rest)) ||
    ssnSearchAux (some c) rest

/-- `SSN_REGEX.search(text)` (line 20 of the source, used at line 103):
does `\b(\d{3}[- ]?\d{2}[- ]?\d{4})\b` match anywhere in `text`? -/
def SSN_REGEX_search (s : String) : Bool :=
  ssnSearchAux none s.data

/-- `_find_ssn_boxes` (lines 100-106): pad-2 boxes of tokens whose text
matches the identifier pattern, then the internal merge. -/
def find_ssn_boxes (words : List WordTok) : List BBox :=
  merge_overlaps (words.filterMap fun w =>
    if SSN_REGEX_search w.text then
      some (expand_bbox w.left w.top w.width w.height 2)
    else none)

/-- `NAME_LABELS` (line 25). -/
def NAME_LABELS : List String :=
  ["name", "applicant", "holder", "bearer"]

/-- Python `text.strip(":")`: remove leading and trailing colons. -/
def pyStripColons (s : String) : String :=
  ⟨((s.data.dropWhile fun c => c = ':').reverse.dropWhile fun c => c = ':').reverse⟩

/-- Removal of trailing colons only; this is the reading of `strip` used
by the claim under scrutiny, not the behaviour of Python `strip`. -/
def pyStripTrailingColons (s : String) : String :=
  ⟨(s.data.reverse.dropWhile fun c => c = ':').reverse⟩

/-- Python `text.lower()` on the ASCII fragment. -/
def pyLower (s : String) : String :=
  ⟨s.data.map Char.toLower⟩

/-- Python `s[1:].islower()` on the ASCII fragment: at least one letter,
and no uppercase letter. -/
def pyIslower (l : List Char) : Bool :=
  (l.any fun c => c.isAlpha) && (l.all fun c => !c.isUpper)

/-- `is_cap_word` (lines 127-128): length above 1, uppercase first
character, lowercase remainder. -/
def is_cap_word (s : String) : Bool :=
  match s.data with
  | [] => false
  | [_] => false
  | c :: rest => c.isUpper && pyIslower rest

/-- The union-then-pad-2 box built from a pair of tokens (lines 119-123
and 134-138 of the source). -/
def nameUnionBox (w nxt : WordTok) : BBox :=
  let x := min w.left nxt.left
  let y := min w.top nxt.top
  let x2 := max (w.left + w.width) (nxt.left + nxt.width)
  let y2 := max (w.top + w.height) (nxt.top + nxt.height)
  expand_bbox x y (x2 - x) (y2 - y) 2

/-- Heuristic 1 of `_find_name_boxes` (lines 111-124): for every token
whose colon-stripped, lower-cased text is a name label, emit one padded
union box with each of the next up-to-3 tokens. -/
def labelHits (words : List WordTok) : List BBox :=
  words.enum.flatMap fun iw =>
    if NAME_LABELS.contains (pyLower (pyStripColons iw.2.text)) then
      [1, 2, 3].filterMap fun k =>
        (words[iw.1 + k]?).map fun nxt => nameUnionBox iw.2 nxt
    else []

/-- Reference form of the label-adjacency heuristic written after the
words of the claim (with the strip amended to remove colons on both
sides, as Python `strip` does): a token triggers iff its colon-stripped,
lower-cased text is in the label set, and each trigger contributes one
pad-2 union box per following token, for the up-to-3 tokens that follow
it in token order. -/
def labelHitsClaim (words : List WordTok) : List BBox :=
  words.enum.flatMap fun iw =>
    if NAME_LABELS.contains (pyLower (pyStripColons iw.2.text)) then
      ((words.drop (iw.1 + 1)).take 3).map fun nxt => nameUnionBox iw.2 nxt
    else []

/-- Heuristic 2 of `_find_name_boxes` (lines 126-142): scan for two
consecutive capitalized words; a matching pair is consumed whole. -/
def capPairHits : List WordTok → List BBox
  | w1 :: w2 :: rest =>
    if is_cap_word w1.text && is_cap_word w2.text then
      nameUnionBox w1 w2 :: capPairHits rest
    else
      capPairHits (w2 :: rest)
  | _ => []

/-- `_find_name_boxes` (lines 108-144): both heuristics, then the
internal merge. -/
def find_name_boxes (words : List WordTok) : List BBox :=
  merge_overlaps (labelHits words ++ capPairHits words)

/-- The count summary returned by the pipeline (lines 170-174). -/
structure Counts where
  ssn : Nat
  names : Nat
  total : Nat
deriving DecidableEq

/-- Error kinds of the pipeline.  `imageReadError` is the
`ValueError("Could not read image: ...")` raised at line 154, the
`ImageReadError` kind in the taxonomy of the specification. -/
inductive MaskError where
  | imageReadError (msg : String)
deriving DecidableEq

/-- `mask_sensitive_info` (lines 146-175).  The decode step
(`cv2.imread`) is an external collaborator, so the function receives its
result: `none` models an unreadable image, `some words` a decoded image
together with the OCR word tokens.  The first component of the result is
the list of paths written (`cv2.imwrite` at line 168); the error is
raised before any write. -/
def mask_sensitive_info (decoded : Option (List WordTok))
    (input_path output_path : String) :
    List String × Except MaskError (String × Counts) :=
  match decoded with
  | none =>
    ([], Except.error (MaskError.imageReadError
        ("Could not read image: " ++ input_path)))
  | some words =>
    let ssn_boxes := find_ssn_boxes words
    let name_boxes := find_name_boxes words
    ([output_path],
     Except.ok (output_path,
       ⟨ssn_boxes.length, name_boxes.length,
        ssn_boxes.length + name_boxes.length⟩))

/-- One merge step on multisets of corner rectangles: replace two
overlapping members by their union.  Each union performed by `absorb` is
one such step; confluence of this relation is what makes the fixed point
of `_merge_overlaps` independent of the input order. -/
def MStep (S T : Multiset CRect) : Prop :=
  ∃ r s rest, S = r ::ₘ s ::ₘ rest ∧ overlapsB r s = true ∧
    T = unionC r s ::ₘ rest

/-- The non-overlap relation on output rectangles, in corner form. -/
def NoOverlap (r s : CRect) : Prop :=
  overlapsB r s = false

/-- A multiset of rectangles is normal when no merge step applies. -/
def MNormal (S : Multiset CRect) : Prop :=
  ∀ T, ¬ MStep S T

theorem toCRect_toBBox (r : CRect) : toCRect (toBBox r) = r := by
  simp [toCRect, toBBox]

theorem toBBox_toCRect (b : BBox) : toBBox (toCRect b) = b := by
  simp [toBBox, toCRect]

theorem overlapsB_symm (r s : CRect) : overlapsB r s = overlapsB s r := by
  simp only [overlapsB]
  by_cases h1 : r.x2 < s.x1 <;> by_cases h2 : s.x2 < r.x1 <;>
    by_cases h3 : r.y2 < s.y1 <;> by_cases h4 : s.y2 < r.y1 <;>
    simp [h1, h2, h3, h4]

theorem noOverlap_symm : Symmetric NoOverlap := by
  intro r s h
  unfold NoOverlap at *
  rw [overlapsB_symm]
  exact h

theorem unionC_comm (r s : CRect) : unionC r s = unionC s r := by
  simp [unionC, min_comm, max_comm]

theorem unionC_right_comm (a b c : CRect) :
    unionC (unionC a b) c = unionC (unionC a c) b := by
  simp only [unionC, CRect.mk.injEq]
  refine ⟨by omega, by omega, by omega, by omega⟩

theorem overlapsB_union_left {a c : CRect} (b : CRect)
    (h : overlapsB a c = true) : overlapsB (unionC a b) c = true := by
  simp only [overlapsB, unionC, Bool.not_eq_true', Bool.or_eq_false_iff,
    decide_eq_false_iff_not] at h ⊢
  omega

theorem absorb_rest_length (r : CRect) (l : List CRect) :
    (absorb r l).2.1.length ≤ l.length := by
  induction l generalizing r with
  | nil => simp [absorb]
  | cons s rest ih =>
    by_cases h : overlapsB r s = true
    · simp only [absorb, if_pos h]
      exact Nat.le_succ_of_le (ih (unionC r s))
    · simp only [absorb, if_neg h, List.length_cons]
      exact Nat.succ_le_succ (ih r)

theorem mergePassN_congr (n m : Nat) (l : List CRect)
    (hn : l.length ≤ n) (hm : l.length ≤ m) :
    mergePassN n l = mergePassN m l := by
  induction n generalizing m l with
  | zero =>
    have : l = [] := List.length_eq_zero.mp (Nat.le_zero.mp hn)
    subst this
    cases m <;> rfl
  | succ n ih =>
    cases l with
    | nil => cases m <;> rfl
    | cons r rest =>
      cases m with
      | zero => exact absurd hm (by simp)
      | succ m =>
        simp only [mergePassN]
        have hlen := absorb_rest_length r rest
        have hrest : rest.length ≤ n := Nat.le_of_succ_le_succ hn
        have hrestm : rest.length ≤ m := Nat.le_of_succ_le_succ hm
        rw [ih m (absorb r rest).2.1 (le_trans hlen hrest) (le_trans hlen hrestm)]

theorem mergePass_nil : mergePass [] = ([], false) := rfl

theorem mergePass_cons (r : CRect) (rest : List CRect) :
    mergePass (r :: rest) =
      ((absorb r rest).1 :: (mergePass (absorb r rest).2.1).1,
       (absorb r rest).2.2 || (mergePass (absorb r rest).2.1).2) := by
  unfold mergePass
  simp only [List.length_cons, mergePassN]
  rw [mergePassN_congr rest.length (absorb r rest).2.1.length (absorb r rest).2.1
    (absorb_rest_length r rest) le_rfl]

theorem absorb_not_merged (r : CRect) (l : List CRect)
    (h : (absorb r l).2.2 = false) :
    (absorb r l).1 = r ∧ (absorb r l).2.1 = l ∧ ∀ s ∈ l, overlapsB r s = false := by
  induction l generalizing r with
  | nil => simp [absorb]
  | cons s rest ih =>
    by_cases ho : overlapsB r s = true
    · simp [absorb, if_pos ho] at h
    · have hno : overlapsB r s = false := Bool.eq_false_iff.mpr ho
      simp only [absorb, if_neg ho] at h ⊢
      obtain ⟨h1, h2, h3⟩ := ih r h
      refine ⟨h1, by rw [h2], ?_⟩
      intro t ht
      rcases List.mem_cons.mp ht with hts | htr
      · rw [hts]; exact hno
      · exact h3 t htr

theorem absorb_no_overlap (r : CRect) (l : List CRect)
    (h : ∀ s ∈ l, overlapsB r s = false) :
    absorb r l = (r, l, false) := by
  induction l generalizing r with
  | nil => rfl
  | cons s rest ih =>
    have hs : ¬ (overlapsB r s = true) := by
      simp [h s (List.mem_cons_self s rest)]
    simp only [absorb, if_neg hs]
    rw [ih r (fun t ht => h t (List.mem_cons_of_mem s ht))]

theorem absorb_merged_length (r : CRect) (l : List CRect)
    (h : (absorb r l).2.2 = true) :
    (absorb r l).2.1.length < l.length := by
  induction l generalizing r with
  | nil => simp [absorb] at h
  | cons s rest ih =>
    by_cases ho : overlapsB r s = true
    · simp only [absorb, if_pos ho]
      exact Nat.lt_succ_of_le (absorb_rest_length (unionC r s) rest)
    · simp only [absorb, if_neg ho] at h ⊢
      simp only [List.length_cons]
      exact Nat.succ_lt_succ (ih r h)

theorem mergePass_length_le (l : List CRect) :
    (mergePass l).1.length ≤ l.length := by
  suffices h : ∀ (n : Nat) (l : List CRect), l.length ≤ n →
      (mergePass l).1.length ≤ l.length from h l.length l le_rfl
  intro n
  induction n with
  | zero =>
    intro l h
    have : l = [] := List.length_eq_zero.mp (Nat.le_zero.mp h)
    subst this
    simp [mergePass_nil]
  | succ n ih =>
    intro l h
    cases l with
    | nil => simp [mergePass_nil]
    | cons r rest =>
      rw [mergePass_cons]
      simp only [List.length_cons]
      have h1 := absorb_rest_length r rest
      have h2 := ih (absorb r rest).2.1
        (le_trans h1 (Nat.le_of_succ_le_succ h))
      omega

theorem mergePass_flag_false (l : List CRect) (h : (mergePass l).2 = false) :
    (mergePass l).1 = l ∧ List.Pairwise NoOverlap l := by
  suffices hs : ∀ (n : Nat) (l : List CRect), l.length ≤ n →
      (mergePass l).2 = false →
      (mergePass l).1 = l ∧ List.Pairwise NoOverlap l from hs l.length l le_rfl h
  intro n
  induction n with
  | zero =>
    intro l hl _
    have : l = [] := List.length_eq_zero.mp (Nat.le_zero.mp hl)
    subst this
    exact ⟨rfl, List.Pairwise.nil⟩
  | succ n ih =>
    intro l hl hf
    cases l with
    | nil => exact ⟨rfl, List.Pairwise.nil⟩
    | cons r rest =>
      rw [mergePass_cons] at hf
      simp only [Bool.or_eq_false_iff] at hf
      obtain ⟨hf1, hf2⟩ := hf
      obtain ⟨ha1, ha2, ha3⟩ := absorb_not_merged r rest hf1
      have hih := ih (absorb r rest).2.1
        (le_trans (absorb_rest_length r rest) (Nat.le_of_succ_le_succ hl)) hf2
      rw [ha2] at hih
      constructor
      · rw [mergePass_cons]
        simp only
        rw [ha1, ha2, hih.1]
      · exact List.Pairwise.cons ha3 hih.2

theorem mergePass_of_pairwise (l : List CRect) (h : List.Pairwise NoOverlap l) :
    mergePass l = (l, false) := by
  induction l with
  | nil => rfl
  | cons r rest ih =>
    obtain ⟨hr, hrest⟩ := List.pairwise_cons.mp h
    rw [mergePass_cons, absorb_no_overlap r rest hr]
    simp [ih hrest]

theorem mergePass_length_lt (l : List CRect) (h : (mergePass l).2 = true) :
    (mergePass l).1.length < l.length := by
  suffices hs : ∀ (n : Nat) (l : List CRect), l.length ≤ n →
      (mergePass l).2 = true →
      (mergePass l).1.length < l.length from hs l.length l le_rfl h
  intro n
  induction n with
  | zero =>
    intro l hl hf
    have : l = [] := List.length_eq_zero.mp (Nat.le_zero.mp hl)
    subst this
    simp [mergePass_nil] at hf
  | succ n ih =>
    intro l hl hf
    cases l with
    | nil => simp [mergePass_nil] at hf
    | cons r rest =>
      rw [mergePass_cons] at hf ⊢
      simp only [Bool.or_eq_true] at hf
      simp only [List.length_cons] at hl ⊢
      have hle := mergePass_length_le (absorb r rest).2.1
      have hal := absorb_rest_length r rest
      rcases hf with hf | hf
      · have := absorb_merged_length r rest hf
        omega
      · have := ih (absorb r rest).2.1 (by omega) hf
        omega

theorem mergeLoopN_pairwise :
    ∀ (n : Nat) (l : List CRect), l.length < n →
      List.Pairwise NoOverlap (mergeLoopN n l) := by
  intro n
  induction n with
  | zero => intro l h; omega
  | succ n ih =>
    intro l h
    simp only [mergeLoopN]
    by_cases hf : (mergePass l).2 = true
    · rw [if_pos hf]
      apply ih
      have := mergePass_length_lt l hf
      omega
    · rw [if_neg hf]
      obtain ⟨h1, h2⟩ := mergePass_flag_false l (Bool.eq_false_iff.mpr hf)
      rw [h1]
      exact h2

theorem mergeLoop_pairwise (l : List CRect) :
    List.Pairwise NoOverlap (mergeLoop l) :=
  mergeLoopN_pairwise (l.length + 1) l (by omega)

theorem mergeLoop_of_pairwise (l : List CRect) (h : List.Pairwise NoOverlap l) :
    mergeLoop l = l := by
  unfold mergeLoop
  simp only [mergeLoopN, mergePass_of_pairwise l h]
  simp

/-- C3: any two distinct rectangles in the output of `_merge_overlaps`
are mutually non-overlapping under the own predicate of the merge: for no
pair of output rectangles does
`NOT (x2 < a1 or a2 < x1 or y2 < b1 or b2 < y1)` hold on their
`(x1, y1, x2, y2)` corner forms. -/
theorem merge_overlaps_pairwise (boxes : List BBox) :
    List.Pairwise (fun a b => overlapsB (toCRect a) (toCRect b) = false)
      (merge_overlaps boxes) := by
  unfold merge_overlaps
  by_cases h : boxes.isEmpty
  · rw [if_pos h]
    exact List.Pairwise.nil
  · rw [if_neg h, List.pairwise_map]
    have hp := mergeLoop_pairwise (boxes.map toCRect)
    refine List.Pairwise.imp ?_ hp
    intro a b hab
    rw [toCRect_toBBox, toCRect_toBBox]
    exact hab

theorem merge_overlaps_nonempty (R : List BBox) (h : ¬ (R.isEmpty = true)) :
    merge_overlaps R = (mergeLoop (R.map toCRect)).map toBBox := by
  unfold merge_overlaps
  rw [if_neg h]

theorem merge_overlaps_idem_list (R : List BBox) :
    merge_overlaps (merge_overlaps R) = merge_overlaps R := by
  rcases hO : merge_overlaps R with _ | ⟨b, out⟩
  · rfl
  · have hne : ¬ ((b :: out).isEmpty = true) := by simp
    have hR : ¬ (R.isEmpty = true) := by
      intro hc
      rw [List.isEmpty_iff.mp hc] at hO
      simp [merge_overlaps] at hO
    have hcomp1 : toCRect ∘ toBBox = id := funext toCRect_toBBox
    have hcomp2 : toBBox ∘ toCRect = id := funext toBBox_toCRect
    have hmap : (b :: out).map toCRect = mergeLoop (R.map toCRect) := by
      rw [← hO, merge_overlaps_nonempty R hR, List.map_map, hcomp1, List.map_id]
    rw [merge_overlaps_nonempty _ hne, hmap,
      mergeLoop_of_pairwise _ (mergeLoop_pairwise _), ← hmap, List.map_map,
      hcomp2, List.map_id]

/-- C4: `_merge_overlaps` is idempotent: applying it to its own output
returns the same rectangles (here even as equal lists, hence in
particular as equal unordered collections). -/
theorem merge_overlaps_idempotent (R : List BBox) :
    (↑(merge_overlaps (merge_overlaps R)) : Multiset BBox) =
      ↑(merge_overlaps R) := by
  rw [merge_overlaps_idem_list]

/-- C1: on every successfully decoded image the pipeline returns counts
with `total = ssn + names` exactly, where `ssn` and `names` are the
lengths of the merged box lists of the two detectors. -/
theorem mask_counts (words : List WordTok) (input_path output_path : String) :
    ∃ c : Counts,
      (mask_sensitive_info (some words) input_path output_path).2 =
        Except.ok (output_path, c) ∧
      c.total = c.ssn + c.names ∧
      c.ssn = (find_ssn_boxes words).length ∧
      c.names = (find_name_boxes words).length :=
  ⟨⟨(find_ssn_boxes words).length, (find_name_boxes words).length,
    (find_ssn_boxes words).length + (find_name_boxes words).length⟩,
   rfl, rfl, rfl, rfl⟩

/-- C2: the identifier pattern matches the token texts `123-45-6789`,
`123456789` and `123 45 6789`, and does not match `12-345-6789`. -/
theorem ssn_regex_examples :
    SSN_REGEX_search "123-45-6789" = true ∧
    SSN_REGEX_search "123456789" = true ∧
    SSN_REGEX_search "123 45 6789" = true ∧
    SSN_REGEX_search "12-345-6789" = false := by decide

/-- C9: on an input whose image cannot be decoded the pipeline fails
with the `ImageReadError` kind (Python `ValueError("Could not read
image: ...")`) and writes no output file. -/
theorem mask_unreadable_image (input_path output_path : String) :
    mask_sensitive_info none input_path output_path =
      ([], Except.error (MaskError.imageReadError
        ("Could not read image: " ++ input_path))) := rfl

/-- C6 counterexample: for the rectangle `(-1, 0, 1, 1)` and pad `0`,
the point `(-1, 0)` is covered by the rectangle but not by its
`_expand_bbox` image, because the origin clamp moves a negative origin
to 0; so expansion does not contain the input for every integer
coordinate rectangle. -/
theorem expand_bbox_not_contained_cx :
    (0 : Int) ≤ 0 ∧
    inBBox ⟨-1, 0, 1, 1⟩ (-1) 0 = true ∧
    inBBox (expandBBoxPad ⟨-1, 0, 1, 1⟩ 0) (-1) 0 = false := by decide

/-- C6 (amended): for rectangles with non-negative origin (the shape of
every rectangle the pipeline builds, per the data model), expansion by a
pad `p ≥ 0` contains the rectangle, and for `0 ≤ p1 < p2` the `p2`
expansion contains the `p1` expansion, including when the origin is
clamped to 0. -/
theorem expand_bbox_monotone (r : BBox) (p p1 p2 : Int)
    (hx : 0 ≤ r.x) (hy : 0 ≤ r.y) (hp : 0 ≤ p) (hp1 : 0 ≤ p1)
    (h12 : p1 < p2) :
    (∀ px py, inBBox r px py = true →
      inBBox (expandBBoxPad r p) px py = true) ∧
    (∀ px py, inBBox (expandBBoxPad r p1) px py = true →
      inBBox (expandBBoxPad r p2) px py = true) := by
  constructor <;> intro px py h <;>
    simp [inBBox, expandBBoxPad, expand_bbox] at h ⊢ <;> omega

theorem expand_bbox_monotone_witness :
    (0 : Int) ≤ 2 ∧ (0 : Int) ≤ 3 ∧ (0 : Int) ≤ 1 ∧ (0 : Int) ≤ 0 ∧
    (0 : Int) < 5 ∧
    ((∀ px py, inBBox ⟨2, 3, 4, 4⟩ px py = true →
        inBBox (expandBBoxPad ⟨2, 3, 4, 4⟩ 1) px py = true) ∧
     (∀ px py, inBBox (expandBBoxPad ⟨2, 3, 4, 4⟩ 0) px py = true →
        inBBox (expandBBoxPad ⟨2, 3, 4, 4⟩ 5) px py = true)) :=
  ⟨by decide, by decide, by decide, by decide, by decide,
   expand_bbox_monotone ⟨2, 3, 4, 4⟩ 1 0 5 (by decide) (by decide)
     (by decide) (by decide) (by decide)⟩

theorem filterMap_lookahead (l : List WordTok) (i : Nat) (f : WordTok → BBox) :
    [1, 2, 3].filterMap (fun k => (l[i + k]?).map f) =
      ((l.drop (i + 1)).take 3).map f := by
  have key : ∀ d : List WordTok,
      [1, 2, 3].filterMap (fun k => (d[k]?).map f) =
        ((d.drop 1).take 3).map f := by
    intro d
    match d with
    | [] => rfl
    | [_] => rfl
    | [_, _] => rfl
    | [_, _, _] => rfl
    | _ :: _ :: _ :: _ :: _ => simp [List.filterMap_cons]
  have hd : l.drop (i + 1) = (l.drop i).drop 1 := by
    simp [List.drop_drop]
  rw [hd, ← key (l.drop i)]
  simp only [List.getElem?_drop]

/-- C8 (amended): a token triggers the label-adjacency heuristic iff its
text with leading AND trailing colons stripped (Python `strip(":")`
strips both sides, the claim said trailing only) and lower-cased is in
the label set `name, applicant, holder, bearer`; each trigger
contributes, for each of the up-to-3 tokens that follow it in token
order, one pad-2 union box of the label token and that one following
token. -/
theorem labelHits_eq_claim (words : List WordTok) :
    labelHits words = labelHitsClaim words := by
  unfold labelHits labelHitsClaim
  apply congrArg
  funext iw
  by_cases hc : NAME_LABELS.contains (pyLower (pyStripColons iw.2.text)) = true
  · rw [if_pos hc, if_pos hc, filterMap_lookahead]
  · rw [if_neg hc, if_neg hc]

/-- C8 counterexample: the token text `:name` does not belong to the
label set after stripping only trailing colons, yet it triggers the
heuristic in the code (Python `strip` removes leading colons too), so
the claimed `iff` is false on the token list `[":name", "John"]`. -/
theorem label_trigger_not_trailing_strip_cx :
    NAME_LABELS.contains (pyLower (pyStripTrailingColons ":name")) = false ∧
    labelHits [⟨":name", 0, 0, 4, 2⟩, ⟨"John", 10, 0, 4, 2⟩] ≠ [] := by decide

theorem mergeLoopN_succ (n : Nat) (l : List CRect) :
    mergeLoopN (n + 1) l =
      if (mergePass l).2 then mergeLoopN n (mergePass l).1
      else (mergePass l).1 := rfl

theorem mergePass_single (a : CRect) : mergePass [a] = ([a], false) := by
  rw [mergePass_cons]
  rfl

theorem mergePass_pair (a b : CRect) (h : overlapsB a b = true) :
    mergePass [a, b] = ([unionC a b], true) := by
  rw [mergePass_cons]
  simp only [absorb, if_pos h]
  rfl

theorem mergeLoop_pair (a b : CRect) (h : overlapsB a b = true) :
    mergeLoop [a, b] = [unionC a b] := by
  unfold mergeLoop
  rw [mergeLoopN_succ, mergePass_pair a b h]
  show mergeLoopN ([a, b] : List CRect).length [unionC a b] = [unionC a b]
  show mergeLoopN (1 + 1) [unionC a b] = [unionC a b]
  rw [mergeLoopN_succ, mergePass_single]
  rfl

theorem overlapsB_eq_true (r s : CRect) :
    overlapsB r s = true ↔
      ¬ r.x2 < s.x1 ∧ ¬ s.x2 < r.x1 ∧ ¬ r.y2 < s.y1 ∧ ¬ s.y2 < r.y1 := by
  simp [overlapsB, not_or]
  tauto

/-- C7 (amended): two rectangles that touch edge-to-edge (`x2` of one
equals `a1` of the other) with intersecting vertical intervals DO
satisfy the overlap predicate, because the test uses strict
inequalities, and `_merge_overlaps` merges them into their single union
rectangle rather than leaving both unmerged. -/
theorem touching_boxes_merged (b c : BBox)
    (hwb : 0 ≤ b.w) (hwc : 0 ≤ c.w)
    (htouch : b.x + b.w = c.x)
    (hv1 : ¬ (b.y + b.h < c.y)) (hv2 : ¬ (c.y + c.h < b.y)) :
    overlapsB (toCRect b) (toCRect c) = true ∧
    merge_overlaps [b, c] = [toBBox (unionC (toCRect b) (toCRect c))] := by
  have hov : overlapsB (toCRect b) (toCRect c) = true := by
    rw [overlapsB_eq_true]
    simp only [toCRect]
    omega
  refine ⟨hov, ?_⟩
  have hne : ¬ (([b, c] : List BBox).isEmpty = true) := by simp
  rw [merge_overlaps_nonempty _ hne]
  show (mergeLoop [toCRect b, toCRect c]).map toBBox = _
  rw [mergeLoop_pair _ _ hov]
  rfl

/-- C7 counterexample: the boxes `(0,0,1,1)` and `(1,0,1,1)` touch
edge-to-edge (`x2 = a1 = 1`) with equal vertical intervals, and
`_merge_overlaps` merges them into the single box `(0,0,2,1)`; they do
not both appear unmerged in the output. -/
theorem touching_boxes_merged_cx :
    merge_overlaps [⟨0, 0, 1, 1⟩, (⟨1, 0, 1, 1⟩ : BBox)] = [⟨0, 0, 2, 1⟩] ∧
    (⟨0, 0, 1, 1⟩ : BBox) ∉
      merge_overlaps [⟨0, 0, 1, 1⟩, (⟨1, 0, 1, 1⟩ : BBox)] := by decide

theorem touching_boxes_merged_witness :
    (0 : Int) ≤ 1 ∧ (0 : Int) ≤ 1 ∧ (0 : Int) + 1 = 1 ∧
    ¬ ((0 : Int) + 1 < 0) ∧ ¬ ((0 : Int) + 1 < 0) ∧
    (overlapsB (toCRect ⟨0, 0, 1, 1⟩) (toCRect ⟨1, 0, 1, 1⟩) = true ∧
     merge_overlaps [⟨0, 0, 1, 1⟩, (⟨1, 0, 1, 1⟩ : BBox)] =
       [toBBox (unionC (toCRect ⟨0, 0, 1, 1⟩) (toCRect ⟨1, 0, 1, 1⟩))]) :=
  ⟨by decide, by decide, by decide, by decide, by decide,
   touching_boxes_merged ⟨0, 0, 1, 1⟩ ⟨1, 0, 1, 1⟩ (by decide) (by decide)
     (by decide) (by decide) (by decide)⟩

theorem containsC_refl (r : CRect) : containsC r r = true := by
  simp [containsC]

theorem containsC_trans (a b c : CRect) (h1 : containsC b a = true)
    (h2 : containsC c b = true) : containsC c a = true := by
  simp [containsC] at *
  omega

theorem containsC_union_left (r s : CRect) :
    containsC (unionC r s) r = true := by
  simp [containsC, unionC]

theorem containsC_union_right (r s : CRect) :
    containsC (unionC r s) s = true := by
  simp [containsC, unionC]

theorem absorb_covers (r : CRect) (l : List CRect) :
    containsC (absorb r l).1 r = true ∧
    ∀ s ∈ l, containsC (absorb r l).1 s = true ∨ s ∈ (absorb r l).2.1 := by
  induction l generalizing r with
  | nil => simp [absorb, containsC_refl]
  | cons s rest ih =>
    by_cases ho : overlapsB r s = true
    · simp only [absorb, if_pos ho]
      obtain ⟨ih1, ih2⟩ := ih (unionC r s)
      constructor
      · exact containsC_trans _ _ _ (containsC_union_left r s) ih1
      · intro t ht
        rcases List.mem_cons.mp ht with hts | htr
        · subst hts
          left
          exact containsC_trans _ _ _ (containsC_union_right r t) ih1
        · exact ih2 t htr
    · simp only [absorb, if_neg ho]
      obtain ⟨ih1, ih2⟩ := ih r
      refine ⟨ih1, ?_⟩
      intro t ht
      rcases List.mem_cons.mp ht with hts | htr
      · subst hts
        right
        exact List.mem_cons_self _ _
      · rcases ih2 t htr with hc | hm
        · left
          exact hc
        · right
          exact List.mem_cons_of_mem s hm

theorem mergePass_covers (l : List CRect) :
    ∀ s ∈ l, ∃ m ∈ (mergePass l).1, containsC m s = true := by
  suffices hs : ∀ (n : Nat) (l : List CRect), l.length ≤ n →
      ∀ s ∈ l, ∃ m ∈ (mergePass l).1, containsC m s = true from
    hs l.length l le_rfl
  intro n
  induction n with
  | zero =>
    intro l hl s hsl
    have : l = [] := List.length_eq_zero.mp (Nat.le_zero.mp hl)
    subst this
    exact absurd hsl (List.not_mem_nil s)
  | succ n ih =>
    intro l hl s hsl
    cases l with
    | nil => exact absurd hsl (List.not_mem_nil s)
    | cons r rest =>
      rw [mergePass_cons]
      obtain ⟨hc1, hc2⟩ := absorb_covers r rest
      rcases List.mem_cons.mp hsl with hsr | hsrest
      · subst hsr
        exact ⟨(absorb s rest).1, List.mem_cons_self _ _, hc1⟩
      · rcases hc2 s hsrest with hcont | hmem
        · exact ⟨(absorb r rest).1, List.mem_cons_self _ _, hcont⟩
        · have hlen := le_trans (absorb_rest_length r rest)
            (Nat.le_of_succ_le_succ hl)
          obtain ⟨m, hm, hcont⟩ := ih (absorb r rest).2.1 hlen s hmem
          exact ⟨m, List.mem_cons_of_mem _ hm, hcont⟩

theorem mergeLoop_covers (l : List CRect) :
    ∀ s ∈ l, ∃ m ∈ mergeLoop l, containsC m s = true := by
  suffices hs : ∀ (n : Nat) (l : List CRect), l.length < n →
      ∀ s ∈ l, ∃ m ∈ mergeLoopN n l, containsC m s = true from
    fun s hsl => hs (l.length + 1) l (by omega) s hsl
  intro n
  induction n with
  | zero => intro l hl; omega
  | succ n ih =>
    intro l hl s hsl
    rw [mergeLoopN_succ]
    obtain ⟨m1, hm1, hcont1⟩ := mergePass_covers l s hsl
    by_cases hf : (mergePass l).2 = true
    · rw [if_pos hf]
      have hlt := mergePass_length_lt l hf
      obtain ⟨m, hm, hcont⟩ := ih (mergePass l).1 (by omega) m1 hm1
      exact ⟨m, hm, containsC_trans _ _ _ hcont1 hcont⟩
    · rw [if_neg hf]
      exact ⟨m1, hm1, hcont1⟩

/-- C10: every input rectangle is contained in some rectangle of the
output of `_merge_overlaps`, so merging never shrinks the total region
that will be masked. -/
theorem merge_overlaps_covers (boxes : List BBox) (b : BBox)
    (hb : b ∈ boxes) :
    ∃ m ∈ merge_overlaps boxes, containsBBox m b = true := by
  have hne : ¬ (boxes.isEmpty = true) := by
    intro hc
    rw [List.isEmpty_iff.mp hc] at hb
    exact absurd hb (List.not_mem_nil b)
  rw [merge_overlaps_nonempty boxes hne]
  have hcr : toCRect b ∈ boxes.map toCRect := List.mem_map_of_mem toCRect hb
  obtain ⟨m, hm, hcont⟩ := mergeLoop_covers _ _ hcr
  refine ⟨toBBox m, List.mem_map_of_mem toBBox hm, ?_⟩
  unfold containsBBox
  rw [toCRect_toBBox]
  exact hcont

theorem merge_overlaps_covers_witness :
    (⟨2, 2, 3, 3⟩ : BBox) ∈ [(⟨2, 2, 3, 3⟩ : BBox), ⟨4, 4, 2, 2⟩] ∧
    ∃ m ∈ merge_overlaps [(⟨2, 2, 3, 3⟩ : BBox), ⟨4, 4, 2, 2⟩],
      containsBBox m ⟨2, 2, 3, 3⟩ = true :=
  ⟨by decide, merge_overlaps_covers _ _ (by decide)⟩

theorem overlapsB_symm_true {r s : CRect} (h : overlapsB r s = true) :
    overlapsB s r = true := by
  rw [← overlapsB_symm]
  exact h

theorem MStep.cons (a : CRect) {S T : Multiset CRect} (h : MStep S T) :
    MStep (a ::ₘ S) (a ::ₘ T) := by
  obtain ⟨r, s, rest, hS, ho, hT⟩ := h
  refine ⟨r, s, a ::ₘ rest, ?_, ho, ?_⟩
  · rw [hS, Multiset.cons_swap a r, Multiset.cons_swap a s]
  · rw [hT, Multiset.cons_swap]

theorem MStep_star_cons (a : CRect) {S T : Multiset CRect}
    (h : Relation.ReflTransGen MStep S T) :
    Relation.ReflTransGen MStep (a ::ₘ S) (a ::ₘ T) :=
  Relation.ReflTransGen.lift (fun M => a ::ₘ M)
    (fun _ _ hst => MStep.cons a hst) h

theorem mstep_join_shared (a b c : CRect) (m : Multiset CRect)
    (hab : overlapsB a b = true) (hac : overlapsB a c = true) :
    ∃ U, MStep (unionC a b ::ₘ c ::ₘ m) U ∧
      MStep (unionC a c ::ₘ b ::ₘ m) U := by
  refine ⟨unionC (unionC a b) c ::ₘ m, ?_, ?_⟩
  · exact ⟨unionC a b, c, m, rfl, overlapsB_union_left b hac, rfl⟩
  · refine ⟨unionC a c, b, m, rfl, overlapsB_union_left c hab, ?_⟩
    rw [unionC_right_comm]

theorem mstep_join_disjoint (a b x y : CRect) (m : Multiset CRect)
    (hab : overlapsB a b = true) (hxy : overlapsB x y = true) :
    ∃ U, MStep (unionC a b ::ₘ x ::ₘ y ::ₘ m) U ∧
      MStep (unionC x y ::ₘ a ::ₘ b ::ₘ m) U := by
  refine ⟨unionC a b ::ₘ unionC x y ::ₘ m, ?_, ?_⟩
  · refine ⟨x, y, unionC a b ::ₘ m, ?_, hxy, ?_⟩
    · rw [Multiset.cons_swap (unionC a b) x, Multiset.cons_swap (unionC a b) y]
    · rw [Multiset.cons_swap]
  · refine ⟨a, b, unionC x y ::ₘ m, ?_, hab, ?_⟩
    · rw [Multiset.cons_swap (unionC x y) a, Multiset.cons_swap (unionC x y) b]
    · rfl

theorem mstep_diamond {S T1 T2 : Multiset CRect}
    (h1 : MStep S T1) (h2 : MStep S T2) :
    T1 = T2 ∨ ∃ U, MStep T1 U ∧ MStep T2 U := by
  obtain ⟨r, s, c, hS1, ho1, hT1⟩ := h1
  obtain ⟨r2, s2, c2, hS2, ho2, hT2⟩ := h2
  rw [hS1] at hS2
  rcases Multiset.cons_eq_cons.mp hS2 with ⟨heq, htail⟩ | ⟨hne, cs, hcs1, hcs2⟩
  · subst heq
    rcases Multiset.cons_eq_cons.mp htail with ⟨heq2, htail2⟩ |
      ⟨hne2, ds, hds1, hds2⟩
    · subst heq2
      subst htail2
      left
      rw [hT1, hT2]
    · right
      obtain ⟨U, hU1, hU2⟩ := mstep_join_shared r s s2 ds ho1 ho2
      refine ⟨U, ?_, ?_⟩
      · rw [hT1, hds1]
        exact hU1
      · rw [hT2, hds2]
        exact hU2
  · rcases Multiset.cons_eq_cons.mp hcs1 with ⟨heqB, htailB⟩ |
      ⟨hneB, es, hes1, hes2⟩
    · subst heqB
      subst htailB
      rcases Multiset.cons_eq_cons.mp hcs2 with ⟨heqC, htailC⟩ |
        ⟨hneC, fs, hfs1, hfs2⟩
      · subst heqC
        subst htailC
        left
        rw [hT1, hT2, unionC_comm]
      · right
        obtain ⟨U, hU1, hU2⟩ :=
          mstep_join_shared s r s2 fs (overlapsB_symm_true ho1) ho2
        refine ⟨U, ?_, ?_⟩
        · rw [hT1, hfs2, unionC_comm r s]
          exact hU1
        · rw [hT2, hfs1]
          exact hU2
    · rw [hes2] at hcs2
      rcases Multiset.cons_eq_cons.mp hcs2 with ⟨heqD, htailD⟩ |
        ⟨hneD, gs, hgs1, hgs2⟩
      · rw [heqD] at ho2 hT2
        right
        obtain ⟨U, hU1, hU2⟩ :=
          mstep_join_shared r s r2 es ho1 (overlapsB_symm_true ho2)
        refine ⟨U, ?_, ?_⟩
        · rw [hT1, hes1]
          exact hU1
        · rw [hT2, htailD, unionC_comm r2 r]
          exact hU2
      · rcases Multiset.cons_eq_cons.mp hgs2 with ⟨heqE, htailE⟩ |
          ⟨hneE, hs', hhs1, hhs2⟩
        · rw [← heqE] at ho2 hT2
          right
          obtain ⟨U, hU1, hU2⟩ :=
            mstep_join_shared s r r2 es (overlapsB_symm_true ho1)
              (overlapsB_symm_true ho2)
          refine ⟨U, ?_, ?_⟩
          · rw [hT1, hes1, unionC_comm r s]
            exact hU1
          · rw [hT2, hgs1, ← htailE, unionC_comm r2 s]
            exact hU2
        · right
          obtain ⟨U, hU1, hU2⟩ := mstep_join_disjoint r s r2 s2 hs' ho1 ho2
          refine ⟨U, ?_, ?_⟩
          · rw [hT1, hes1, hhs1]
            exact hU1
          · rw [hT2, hgs1, hhs2]
            exact hU2

theorem mstep_local_confluent :
    ∀ a b c : Multiset CRect, MStep a b → MStep a c →
      ∃ d, Relation.ReflGen MStep b d ∧ Relation.ReflTransGen MStep c d := by
  intro a b c h1 h2
  rcases mstep_diamond h1 h2 with heq | ⟨U, hU1, hU2⟩
  · refine ⟨c, ?_, Relation.ReflTransGen.refl⟩
    rw [heq]
  · exact ⟨U, Relation.ReflGen.single hU1, Relation.ReflTransGen.single hU2⟩

theorem mstep_nf_unique {S N1 N2 : Multiset CRect}
    (h1 : Relation.ReflTransGen MStep S N1)
    (h2 : Relation.ReflTransGen MStep S N2)
    (hn1 : MNormal N1) (hn2 : MNormal N2) : N1 = N2 := by
  obtain ⟨d, hd1, hd2⟩ := Relation.church_rosser mstep_local_confluent h1 h2
  have e1 : N1 = d := by
    rcases Relation.ReflTransGen.cases_head hd1 with he | ⟨x, hx, _⟩
    · exact he
    · exact absurd hx (hn1 x)
  have e2 : N2 = d := by
    rcases Relation.ReflTransGen.cases_head hd2 with he | ⟨x, hx, _⟩
    · exact he
    · exact absurd hx (hn2 x)
  rw [e1, e2]

theorem absorb_steps (r : CRect) (l : List CRect) :
    Relation.ReflTransGen MStep (r ::ₘ (↑l : Multiset CRect))
      ((absorb r l).1 ::ₘ (↑(absorb r l).2.1 : Multiset CRect)) := by
  induction l generalizing r with
  | nil =>
    simp only [absorb]
    exact Relation.ReflTransGen.refl
  | cons s rest ih =>
    by_cases ho : overlapsB r s = true
    · simp only [absorb, if_pos ho]
      have hstep : MStep (r ::ₘ (↑(s :: rest) : Multiset CRect))
          (unionC r s ::ₘ (↑rest : Multiset CRect)) := by
        refine ⟨r, s, ↑rest, ?_, ho, rfl⟩
        rw [← Multiset.cons_coe]
      exact Relation.ReflTransGen.head hstep (ih (unionC r s))
    · simp only [absorb, if_neg ho]
      have hih := MStep_star_cons s (ih r)
      have e1 : (r ::ₘ (↑(s :: rest) : Multiset CRect)) =
          s ::ₘ r ::ₘ ↑rest := by
        rw [← Multiset.cons_coe, Multiset.cons_swap]
      have e2 : ((absorb r rest).1 ::ₘ
            (↑(s :: (absorb r rest).2.1) : Multiset CRect)) =
          s ::ₘ (absorb r rest).1 ::ₘ ↑(absorb r rest).2.1 := by
        rw [← Multiset.cons_coe, Multiset.cons_swap]
      rw [e1, e2]
      exact hih

theorem mergePass_steps (l : List CRect) :
    Relation.ReflTransGen MStep (↑l : Multiset CRect) ↑(mergePass l).1 := by
  suffices hs : ∀ (n : Nat) (l : List CRect), l.length ≤ n →
      Relation.ReflTransGen MStep (↑l : Multiset CRect) ↑(mergePass l).1 from
    hs l.length l le_rfl
  intro n
  induction n with
  | zero =>
    intro l hl
    have : l = [] := List.length_eq_zero.mp (Nat.le_zero.mp hl)
    subst this
    rw [mergePass_nil]
  | succ n ih =>
    intro l hl
    cases l with
    | nil =>
      rw [mergePass_nil]
    | cons r rest =>
      rw [mergePass_cons]
      have s1 := absorb_steps r rest
      have s2 := MStep_star_cons (absorb r rest).1
        (ih (absorb r rest).2.1
          (le_trans (absorb_rest_length r rest) (Nat.le_of_succ_le_succ hl)))
      have e1 : (↑(r :: rest) : Multiset CRect) = r ::ₘ ↑rest :=
        (Multiset.cons_coe r rest).symm
      have e2 : (↑((absorb r rest).1 ::
            (mergePass (absorb r rest).2.1).1) : Multiset CRect) =
          (absorb r rest).1 ::ₘ ↑(mergePass (absorb r rest).2.1).1 :=
        (Multiset.cons_coe _ _).symm
      rw [e1, e2]
      exact Relation.ReflTransGen.trans s1 s2

theorem mergeLoop_steps (l : List CRect) :
    Relation.ReflTransGen MStep (↑l : Multiset CRect) ↑(mergeLoop l) := by
  suffices hs : ∀ (n : Nat) (l : List CRect), l.length < n →
      Relation.ReflTransGen MStep (↑l : Multiset CRect) ↑(mergeLoopN n l) from
    hs (l.length + 1) l (by omega)
  intro n
  induction n with
  | zero => intro l hl; omega
  | succ n ih =>
    intro l hl
    rw [mergeLoopN_succ]
    by_cases hf : (mergePass l).2 = true
    · rw [if_pos hf]
      refine Relation.ReflTransGen.trans (mergePass_steps l)
        (ih (mergePass l).1 ?_)
      have := mergePass_length_lt l hf
      omega
    · rw [if_neg hf]
      exact mergePass_steps l

theorem normal_of_pairwise (l : List CRect)
    (h : List.Pairwise NoOverlap l) : MNormal (↑l) := by
  intro T hT
  obtain ⟨r, s, rest, hS, ho, _⟩ := hT
  revert hS
  induction rest using Quotient.inductionOn with
  | h restl =>
    intro hS
    rw [Multiset.quot_mk_to_coe, Multiset.cons_coe, Multiset.cons_coe] at hS
    have hperm : l.Perm (r :: s :: restl) := Multiset.coe_eq_coe.mp hS
    have hp2 : List.Pairwise NoOverlap (r :: s :: restl) :=
      (List.Perm.pairwise_iff (fun hxy => noOverlap_symm hxy) hperm).mp h
    have hrs := (List.pairwise_cons.mp hp2).1 s (List.mem_cons_self s restl)
    unfold NoOverlap at hrs
    rw [hrs] at ho
    exact Bool.false_ne_true ho

theorem mergeLoop_perm (l l' : List CRect) (h : l.Perm l') :
    (↑(mergeLoop l') : Multiset CRect) = ↑(mergeLoop l) := by
  have hS : (↑l' : Multiset CRect) = ↑l := Multiset.coe_eq_coe.mpr h.symm
  have r1 := mergeLoop_steps l
  have r2 := mergeLoop_steps l'
  rw [hS] at r2
  exact mstep_nf_unique r2 r1
    (normal_of_pairwise _ (mergeLoop_pairwise l'))
    (normal_of_pairwise _ (mergeLoop_pairwise l))

/-- C5: `_merge_overlaps` is order-independent: permuting the input
rectangles yields the same merged rectangles as an unordered collection
(multiset, hence in particular as a set). -/
theorem merge_overlaps_perm (R R' : List BBox) (h : R.Perm R') :
    (↑(merge_overlaps R') : Multiset BBox) = ↑(merge_overlaps R) := by
  by_cases hE : R.isEmpty = true
  · have hR : R = [] := List.isEmpty_iff.mp hE
    subst hR
    have hR' : R' = [] := List.perm_nil.mp h.symm
    rw [hR']
  · have hE' : ¬ (R'.isEmpty = true) := by
      rw [← h.isEmpty_eq]
      exact hE
    rw [merge_overlaps_nonempty R hE, merge_overlaps_nonempty R' hE']
    have hperm : (R.map toCRect).Perm (R'.map toCRect) := h.map toCRect
    have hml := mergeLoop_perm (R.map toCRect) (R'.map toCRect) hperm
    rw [← Multiset.map_coe, ← Multiset.map_coe, hml]

theorem merge_overlaps_perm_witness :
    ([(⟨0, 0, 2, 2⟩ : BBox), ⟨1, 1, 2, 2⟩, ⟨10, 10, 1, 1⟩].Perm
      [⟨10, 10, 1, 1⟩, ⟨1, 1, 2, 2⟩, ⟨0, 0, 2, 2⟩]) ∧
    (↑(merge_overlaps [(⟨10, 10, 1, 1⟩ : BBox), ⟨1, 1, 2, 2⟩, ⟨0, 0, 2, 2⟩]) :
        Multiset BBox) =
      ↑(merge_overlaps [(⟨0, 0, 2, 2⟩ : BBox), ⟨1, 1, 2, 2⟩, ⟨10, 10, 1, 1⟩]) :=
  ⟨by decide, merge_overlaps_perm _ _ (by decide)⟩

end OcrMask
